import Mathlib

/-!
Verification of the streaming-response decoder, tool-call accumulator,
conversation orchestrator and device-auth polling loop of the `th`
repository (a terminal client for a chat-completion service).

The embedding follows the TypeScript sources:
  * `CopilotAPI.chatStream` (src/legacy/src/auth/index.ts, lines 149-212):
    SSE line framing, JSON payload parsing, delta-event emission;
  * `ChatTui.mergeToolCalls` / `ChatTui.streamAssistantResponse` /
    `ChatTui.resolveToolCalls` / `ChatTui.handleReadFile` (src/legacy/008.ts);
  * `login` (src/legacy/src/cli/commands.ts): bounded device-code polling.

Streams of bytes are modelled as streams of characters: the source feeds
every network chunk through `TextDecoder.decode(value, stream: true)`,
which reassembles code points split across chunk boundaries, so the
logical unit reaching the framing loop is a character sequence.

JavaScript `undefined` and the empty string are both falsy and the source
only ever distinguishes values with `||` and truthiness tests; where the
source writes `x || y` over strings the model uses an emptiness test.
-/

/-- JSON values as produced by `JSON.parse`.  Numbers keep their source
lexeme: the decoder only ever passes numbers through or tests their
truthiness, never does arithmetic on them.  Objects keep their fields in
textual order; duplicate keys are resolved by `lookupField` (last wins),
matching `JSON.parse`. -/
inductive Json where
  | null : Json
  | bool : Bool → Json
  | num : String → Json
  | str : String → Json
  | arr : List Json → Json
  | obj : List (String × Json) → Json

/-- The left-brace character, kept as a named constant. -/
def lbrace : Char := Char.ofNat 123

/-- The right-brace character, kept as a named constant. -/
def rbrace : Char := Char.ofNat 125

/-- JSON insignificant whitespace, as accepted by `JSON.parse`. -/
def skipWs : List Char → List Char
  | [] => []
  | c :: cs =>
    if c = ' ' ∨ c = '\t' ∨ c = '\n' ∨ c = '\r' then skipWs cs else c :: cs

/-- Value of a hexadecimal digit. -/
def hexVal (c : Char) : Option Nat :=
  if '0' ≤ c ∧ c ≤ '9' then some (c.toNat - '0'.toNat)
  else if 'a' ≤ c ∧ c ≤ 'f' then some (c.toNat - 'a'.toNat + 10)
  else if 'A' ≤ c ∧ c ≤ 'F' then some (c.toNat - 'A'.toNat + 10)
  else none

/-- Single-character JSON string escapes. -/
def escChar (c : Char) : Option Char :=
  if c = '"' then some '"'
  else if c = '\\' then some '\\'
  else if c = '/' then some '/'
  else if c = 'b' then some (Char.ofNat 8)
  else if c = 'f' then some (Char.ofNat 12)
  else if c = 'n' then some '\n'
  else if c = 'r' then some '\r'
  else if c = 't' then some '\t'
  else none

/-- Body of a JSON string literal, after the opening quote.  Returns the
decoded string and the remaining input. -/
def parseStringBody : List Char → List Char → Option (String × List Char)
  | [], _ => none
  | c :: rest, acc =>
    if c = '"' then some (String.mk acc.reverse, rest)
    else if c = '\\' then
      match rest with
      | [] => none
      | e :: rest2 =>
        if e = 'u' then
          match rest2 with
          | h1 :: h2 :: h3 :: h4 :: rest3 =>
            match hexVal h1, hexVal h2, hexVal h3, hexVal h4 with
            | some a, some b, some c4, some d =>
              parseStringBody rest3 (Char.ofNat (((a * 16 + b) * 16 + c4) * 16 + d) :: acc)
            | _, _, _, _ => none
          | _ => none
        else
          match escChar e with
          | some ch => parseStringBody rest2 (ch :: acc)
          | none => none
    else if c.toNat < 32 then none
    else parseStringBody rest (c :: acc)

/-- Fractional part of a JSON number (possibly absent). -/
def parseFrac : List Char → Option (List Char × List Char)
  | '.' :: r =>
    match r.span Char.isDigit with
    | (ds, r2) => if ds.isEmpty then none else some ('.' :: ds, r2)
  | cs => some ([], cs)

/-- Exponent part of a JSON number (possibly absent). -/
def parseExp : List Char → Option (List Char × List Char)
  | [] => some ([], [])
  | e :: r =>
    if e = 'e' ∨ e = 'E' then
      let signAndRest : List Char × List Char :=
        match r with
        | '+' :: rr => (['+'], rr)
        | '-' :: rr => (['-'], rr)
        | _ => ([], r)
      match signAndRest.2.span Char.isDigit with
      | (ds, r2) =>
        if ds.isEmpty then none else some (e :: (signAndRest.1 ++ ds), r2)
    else some ([], e :: r)

/-- A JSON number lexeme (strict grammar: no leading zeros, mandatory
digits after a decimal point or exponent mark). -/
def parseNumber (cs : List Char) : Option (String × List Char) :=
  let signAndRest : List Char × List Char :=
    match cs with
    | '-' :: r => (['-'], r)
    | _ => ([], cs)
  match signAndRest.2.span Char.isDigit with
  | (ip, r1) =>
    if ip.isEmpty then none
    else if 1 < ip.length ∧ ip.headD 'x' = '0' then none
    else
      match parseFrac r1 with
      | none => none
      | some (fp, r2) =>
        match parseExp r2 with
        | none => none
        | some (ep, r3) =>
          some (String.mk (signAndRest.1 ++ ip ++ fp ++ ep), r3)

mutual

/-- A JSON value.  The `fuel` argument only bounds recursion depth; it is
set large enough by `parseJson` that it never runs out on inputs the
source can receive. -/
def parseValue : Nat → List Char → Option (Json × List Char)
  | 0, _ => none
  | fuel + 1, cs =>
    match skipWs cs with
    | [] => none
    | c :: rest =>
      if c = '"' then
        match parseStringBody rest [] with
        | some (s, r) => some (Json.str s, r)
        | none => none
      else if c = 'n' then
        match rest with
        | 'u' :: 'l' :: 'l' :: r => some (Json.null, r)
        | _ => none
      else if c = 't' then
        match rest with
        | 'r' :: 'u' :: 'e' :: r => some (Json.bool true, r)
        | _ => none
      else if c = 'f' then
        match rest with
        | 'a' :: 'l' :: 's' :: 'e' :: r => some (Json.bool false, r)
        | _ => none
      else if c = lbrace then
        match skipWs rest with
        | x :: r2 =>
          if x = rbrace then some (Json.obj [], r2)
          else parseMembers fuel (x :: r2) []
        | [] => none
      else if c = '[' then
        match skipWs rest with
        | ']' :: r2 => some (Json.arr [], r2)
        | r2 => parseElems fuel r2 []
      else
        match parseNumber (c :: rest) with
        | some (s, r) => some (Json.num s, r)
        | none => none

/-- Members of a JSON object, after the opening brace. -/
def parseMembers : Nat → List Char → List (String × Json) → Option (Json × List Char)
  | 0, _, _ => none
  | fuel + 1, cs, acc =>
    match skipWs cs with
    | '"' :: rest =>
      match parseStringBody rest [] with
      | some (k, r1) =>
        match skipWs r1 with
        | ':' :: r2 =>
          match parseValue fuel r2 with
          | some (v, r3) =>
            match skipWs r3 with
            | ',' :: r4 => parseMembers fuel r4 (acc ++ [(k, v)])
            | x :: r4 =>
              if x = rbrace then some (Json.obj (acc ++ [(k, v)]), r4) else none
            | [] => none
          | none => none
        | _ => none
      | none => none
    | _ => none

/-- Elements of a JSON array, after the opening bracket. -/
def parseElems : Nat → List Char → List Json → Option (Json × List Char)
  | 0, _, _ => none
  | fuel + 1, cs, acc =>
    match parseValue fuel cs with
    | some (v, r1) =>
      match skipWs r1 with
      | ',' :: r2 => parseElems fuel r2 (acc ++ [v])
      | ']' :: r2 => some (Json.arr (acc ++ [v]), r2)
      | _ => none
    | none => none

end

/-- Model of `JSON.parse`: a complete JSON document with nothing but
whitespace after it, `none` on any syntax error. -/
def parseJson (cs : List Char) : Option Json :=
  match parseValue (2 * cs.length + 2) cs with
  | some (v, rest) => if (skipWs rest).isEmpty then some v else none
  | none => none

/-- Field lookup on a parsed object: the last duplicate wins, matching
`JSON.parse` object construction. -/
def lookupField : List (String × Json) → String → Option Json
  | [], _ => none
  | p :: rest, k =>
    match lookupField rest k with
    | some v => some v
    | none => if p.1 = k then some p.2 else none

/-- JavaScript property access `j.k` as used by the decoder: defined on
objects, `undefined` (here `none`) on every other value. -/
def jfield : Json → String → Option Json
  | Json.obj fields, k => lookupField fields k
  | _, _ => none

/-- Whether a number lexeme denotes zero: every digit of its mantissa is
`0`. -/
def numIsZero (s : String) : Bool :=
  (s.toList.takeWhile (fun c => c != 'e' && c != 'E')).all
    (fun c => !c.isDigit || c == '0')

/-- JavaScript truthiness of a JSON value: `null`, `false`, `0` and the
empty string are falsy; every array and object (even empty) is truthy. -/
def jsTruthy : Json → Bool
  | Json.null => false
  | Json.bool b => b
  | Json.num s => !numIsZero s
  | Json.str s => !s.isEmpty
  | Json.arr _ => true
  | Json.obj _ => true

/-- Truthiness of a possibly-absent (`undefined`) value. -/
def jsTruthyOpt : Option Json → Bool
  | some j => jsTruthy j
  | none => false

/-- JavaScript `x?.[0]` as used on `parsed.choices`: first array element,
first character of a string, `undefined` otherwise. -/
def jindex0 : Json → Option Json
  | Json.arr l => l.head?
  | Json.str s =>
    match s.toList with
    | [] => none
    | c :: _ => some (Json.str (String.mk [c]))
  | _ => none

/-- The source expression `parsed.choices?.[0]?.delta`. -/
def deltaOf (j : Json) : Option Json :=
  match jfield j "choices" with
  | none => none
  | some c =>
    match jindex0 c with
    | none => none
    | some e => jfield e "delta"

/-- One yielded chunk of `CopilotAPI.chatStream`: the raw `content` and
`tool_calls` fields of the delta, passed through unchanged. -/
structure DeltaEvent where
  content : Option Json
  tool_calls : Option Json

/-- Outcome of handling one complete framed line. -/
inductive LineResult where
  | skip : LineResult
  | emit : DeltaEvent → LineResult
  | done : LineResult

/-- The sentinel payload `[DONE]`. -/
def doneChars : List Char := ['[', 'D', 'O', 'N', 'E', ']']

/-- Handling of one complete line by `CopilotAPI.chatStream`: lines not
starting with `data: ` are ignored; the payload `[DONE]` ends the stream;
a payload that fails `JSON.parse` is skipped; a parsed payload yields an
event exactly when its delta is truthy and its `content` or `tool_calls`
field is truthy. -/
def processLine : List Char → LineResult
  | 'd' :: 'a' :: 't' :: 'a' :: ':' :: ' ' :: data =>
    if data = doneChars then LineResult.done
    else
      match parseJson data with
      | none => LineResult.skip
      | some parsed =>
        match deltaOf parsed with
        | none => LineResult.skip
        | some delta =>
          if jsTruthy delta &&
              (jsTruthyOpt (jfield delta "content") ||
               jsTruthyOpt (jfield delta "tool_calls")) then
            LineResult.emit ⟨jfield delta "content", jfield delta "tool_calls"⟩
          else LineResult.skip
  | _ => LineResult.skip

/-- Events of a sequence of complete lines, stopping at the first
sentinel line; the flag records whether the sentinel was seen. -/
def processLines : List (List Char) → List DeltaEvent × Bool
  | [] => ([], false)
  | l :: rest =>
    match processLine l with
    | LineResult.done => ([], true)
    | LineResult.skip => processLines rest
    | LineResult.emit e =>
      let r := processLines rest
      (e :: r.1, r.2)

/-- JavaScript `buffer.split(newline)`: always at least one part, the
last part is the trailing text after the final newline. -/
def splitNl : List Char → List (List Char)
  | [] => [[]]
  | c :: cs =>
    if c = '\n' then [] :: splitNl cs
    else
      match splitNl cs with
      | [] => [[c]]
      | h :: t => (c :: h) :: t

/-- The chunk loop of `CopilotAPI.chatStream`: each chunk is appended to
the carried buffer, all complete lines are handled, the trailing partial
line is carried over, and the sentinel stops all further reading.  When
the chunk list ends (network close) the leftover buffer is discarded. -/
def decodeChunks : List Char → List (List Char) → List DeltaEvent
  | _, [] => []
  | buffer, c :: rest =>
    let parts := splitNl (buffer ++ c)
    let r := processLines parts.dropLast
    if r.2 then r.1 else r.1 ++ decodeChunks (parts.getLast?.getD []) rest

/-- `CopilotAPI.chatStream` on a list of already-text-decoded chunks. -/
def chatStream (chunks : List (List Char)) : List DeltaEvent :=
  decodeChunks [] chunks

/-- The complete (newline-terminated) lines of a text. -/
def completeLines (s : List Char) : List (List Char) :=
  (splitNl s).dropLast

/-- A list of lines rendered as text, each line newline-terminated. -/
def linesJoin (ls : List (List Char)) : List Char :=
  (ls.map (fun l => l ++ ['\n'])).flatten

/-- Helper for reasoning about `splitNl` over appends: prepend text to the
first part of a split. -/
def headCons (x : List Char) : List (List Char) → List (List Char)
  | [] => [x]
  | h :: t => (x ++ h) :: t

/-- The `data: ` framing marker. -/
def dataMarker : List Char := ['d', 'a', 't', 'a', ':', ' ']

/-- Whether a delta event carries non-empty text or at least one
tool-call fragment, the condition the specification states for
emission. -/
def carriesPayload (e : DeltaEvent) : Bool :=
  (match e.content with
   | some (Json.str s) => !s.isEmpty
   | _ => false) ||
  (match e.tool_calls with
   | some (Json.arr l) => !l.isEmpty
   | _ => false)

/-- A framed line whose delta has empty text and an empty tool-call
fragment list. -/
def cexSuppressionLine : List Char :=
  ("data: \x7b\"choices\":[\x7b\"delta\":\x7b\"content\":\"\",\"tool_calls\":[]\x7d\x7d]\x7d").toList

/-- A partial tool-call fragment as it arrives inside a delta event.
The wire fields `id`, `function.name` and `function.arguments` may be
absent; absence and the empty string are indistinguishable to the merge
code (it only uses `||` over them), so both are modelled as `""`. -/
structure ToolCallFrag where
  id : String
  name : String
  arguments : String
deriving DecidableEq

/-- An accumulated tool-call record (`id`, `function.name`,
`function.arguments` of the source `ToolCall`; the constant
`type: 'function'` field is omitted). -/
structure ToolCall where
  id : String
  name : String
  arguments : String
deriving DecidableEq

/-- The record created by `merged[index] ?? { id: update.id ||
`tool-index`, ... }` when a slot is first seen. -/
def defaultSlot (index : Nat) (update : ToolCallFrag) : ToolCall :=
  ⟨if update.id = "" then "tool-" ++ toString index else update.id, "", ""⟩

/-- One merge step of `ChatTui.mergeToolCalls` on a single slot:
`current.id = update.id || current.id`, `current.function.name =
update.function?.name || current.function.name`,
`current.function.arguments = (current.function.arguments || '') +
(update.function?.arguments || '')`. -/
def mergeSlot (index : Nat) (current : Option ToolCall) (update : ToolCallFrag) : ToolCall :=
  let cur := match current with
    | some c => c
    | none => defaultSlot index update
  ⟨if update.id = "" then cur.id else update.id,
   if update.name = "" then cur.name else update.name,
   cur.arguments ++ update.arguments⟩

/-- JavaScript `merged[index] = current`.  In `mergeToolCalls` the index
never exceeds the array length (slots are visited in order from zero),
so the assignment either overwrites in place or appends. -/
def setAt : List ToolCall → Nat → ToolCall → List ToolCall
  | [], _, v => [v]
  | _ :: xs, 0, v => v :: xs
  | x :: xs, i + 1, v => x :: setAt xs i v

/-- The `updates.forEach((update, index) => ...)` loop of
`ChatTui.mergeToolCalls`. -/
def mergeGo : List ToolCall → Nat → List ToolCallFrag → List ToolCall
  | merged, _, [] => merged
  | merged, i, u :: rest =>
    mergeGo (setAt merged i (mergeSlot i merged[i]? u)) (i + 1) rest

/-- `ChatTui.mergeToolCalls`: positional merge of one batch of incoming
fragments into the accumulated tool-call list. -/
def mergeToolCalls (existing : List ToolCall) (updates : List ToolCallFrag) : List ToolCall :=
  mergeGo existing 0 updates

/-- Merging a sequence of fragment batches into an initially empty
accumulator, as one streaming pass does. -/
def accumulate (batches : List (List ToolCallFrag)) : List ToolCall :=
  batches.foldl mergeToolCalls []

/-- The fragments a given slot receives across a batch sequence, in
arrival order. -/
def slotFrags (k : Nat) (batches : List (List ToolCallFrag)) : List ToolCallFrag :=
  batches.filterMap (fun b => b[k]?)

/-- Last non-empty string of a list, with a default: the value of a slot
field that is replaced only by non-empty incoming values. -/
def lastNonEmpty (d : String) (l : List String) : String :=
  l.foldl (fun acc s => if s = "" then acc else s) d

/-- A merge step on a slot that already exists. -/
def slotStep (k : Nat) (c : ToolCall) (u : ToolCallFrag) : ToolCall :=
  mergeSlot k (some c) u

/-- Roles of transcript messages (`CopilotMessage.role`). -/
inductive Role where
  | user : Role
  | assistant : Role
  | system : Role
  | function : Role
deriving DecidableEq

/-- A transcript entry (`CopilotMessage`). -/
structure Message where
  role : Role
  content : String
  tool_calls : Option (List ToolCall)
  tool_call_id : Option String
  name : Option String
deriving DecidableEq

/-- One decoded streaming chunk as consumed by the orchestrator loop:
the `content` text and the batch of tool-call fragments of one delta
event. -/
structure StreamChunk where
  content : Option String
  tool_calls : Option (List ToolCallFrag)
deriving DecidableEq

/-- One iteration of the `for await` chunk loop of
`ChatTui.streamAssistantResponse`: merge the fragment batch when present
and non-empty (`chunk.tool_calls && chunk.tool_calls.length > 0`),
append the content when truthy (`if (chunk.content)`). -/
def chunkStep (acc : String × List ToolCall) (ch : StreamChunk) : String × List ToolCall :=
  let withTools :=
    match ch.tool_calls with
    | some tcs => if 0 < tcs.length then mergeToolCalls acc.2 tcs else acc.2
    | none => acc.2
  let withText :=
    match ch.content with
    | some s => if s = "" then acc.1 else acc.1 ++ s
    | none => acc.1
  (withText, withTools)

/-- Accumulated text and pending tool calls of one full streaming pass. -/
def processPass (chunks : List StreamChunk) : String × List ToolCall :=
  chunks.foldl chunkStep ("", [])

/-- `ChatTui.parseToolArguments`: parse the accumulated arguments text
(defaulting to an empty object), keep the result only when it is a
truthy value of JavaScript type `object` (an object or an array),
otherwise fall back to an empty record. -/
def parseToolArguments (tc : ToolCall) : Json :=
  let raw := if tc.arguments = "" then "\x7b\x7d" else tc.arguments
  match parseJson raw.toList with
  | some (Json.obj fields) => Json.obj fields
  | some (Json.arr elems) => Json.arr elems
  | _ => Json.obj []

/-- `ChatTui.handleReadFile`: take the supplied arguments (`args ??
parseToolArguments(toolCall)`), look up the `path` argument, turn a
missing, empty or non-string path into the caught-throw error text, read
the file, and convert a read failure into a textual error result.  The
file system is modelled as a function from path to contents or error
message. -/
def handleReadFile (fs : String → Except String String) (tc : ToolCall) (args : Option Json) :
    String :=
  let parameters :=
    match args with
    | some a => a
    | none => parseToolArguments tc
  match jfield parameters "path" with
  | some (Json.str p) =>
    if p = "" then "Error reading file: read_file requires a valid path argument"
    else
      match fs p with
      | Except.ok content => content
      | Except.error msg => "Error reading file: " ++ msg
  | _ => "Error reading file: read_file requires a valid path argument"

/-- The tool-result message `ChatTui.resolveToolCalls` pushes for one
tool call: `read_file` is dispatched to its handler, every other name
produces a textual not-implemented result. -/
def toolResultMessage (fs : String → Except String String) (tc : ToolCall) : Message :=
  let response :=
    if tc.name = "read_file" then handleReadFile fs tc (some (parseToolArguments tc))
    else "Tool " ++ tc.name ++ " is not implemented in the TUI."
  ⟨Role.function, response, none, some tc.id, some tc.name⟩

/-- `ChatTui.resolveToolCalls`: sequentially execute the pending calls
in slot order, appending one tool-result message per call to the
transcript. -/
def resolveToolCalls (fs : String → Except String String) (toolCalls : List ToolCall) :
    List Message :=
  toolCalls.map (toolResultMessage fs)

/-- Result of one user turn of the orchestrator: the transcript, the
number of streaming requests issued, and whether the depth-limit
diagnostic was surfaced. -/
structure TurnResult where
  history : List Message
  passes : Nat
  aborted : Bool
deriving DecidableEq

/-- The assistant message appended when a pass ends with no tool calls. -/
def assistantFinal (text : String) : Message :=
  ⟨Role.assistant, text, none, none, none⟩

/-- The assistant message recording a tool-call request, with whatever
text accompanied it. -/
def assistantToolMsg (text : String) (tcs : List ToolCall) : Message :=
  ⟨Role.assistant, text, some tcs, none, none⟩

/-- The `while (safetyCounter < maxToolPasses)` loop of
`ChatTui.streamAssistantResponse`.  The model is a function from the
current transcript to the chunks of the next streaming response; the
fuel is `maxToolPasses - safetyCounter`, so fuel zero is the loop guard
failing: the depth-limit diagnostic is surfaced and no further request
is made.  `String.trimRight` models `trimEnd`. -/
def runTurn (model : List Message → List StreamChunk) (fs : String → Except String String) :
    Nat → List Message → TurnResult
  | 0, history => ⟨history, 0, true⟩
  | fuel + 1, history =>
    let pass := processPass (model history)
    if pass.2 = [] then
      let finalText := pass.1.trimRight
      if finalText = "" then ⟨history, 1, false⟩
      else ⟨history ++ [assistantFinal finalText], 1, false⟩
    else
      let r := runTurn model fs fuel
        (history ++ [assistantToolMsg pass.1 pass.2] ++ resolveToolCalls fs pass.2)
      ⟨r.history, r.passes + 1, r.aborted⟩

/-- The fixed pass bound of `ChatTui.streamAssistantResponse`. -/
def maxToolPasses : Nat := 4

/-- `ChatTui.streamAssistantResponse` for one user turn. -/
def streamAssistantResponse (model : List Message → List StreamChunk)
    (fs : String → Except String String) (history : List Message) : TurnResult :=
  runTurn model fs maxToolPasses history

/-- Result of the login polling loop: the final poll status, the number
of poll calls made, and the total seconds spent sleeping. -/
structure LoginResult where
  status : String
  attempts : Nat
  sleptSeconds : Nat
deriving DecidableEq

/-- The polling loop of `login`: while the status is `pending` and the
attempt budget is not exhausted, sleep for the session interval, poll
once, and count the attempt.  `polls n` is the result of the `n`-th
poll call; the fuel is `maxAttempts - attempts`. -/
def pollLoopAux (polls : Nat → String) (interval : Nat) :
    Nat → Nat → Nat → String → LoginResult
  | 0, attempts, slept, status => ⟨status, attempts, slept⟩
  | fuel + 1, attempts, slept, status =>
    if status = "pending" then
      pollLoopAux polls interval fuel (attempts + 1) (slept + interval) (polls attempts)
    else ⟨status, attempts, slept⟩

/-- The fixed attempt budget of `login` (10 minutes at 5-second
intervals). -/
def maxAttempts : Nat := 120

/-- The polling phase of `login`, started with status `pending` before
any poll call. -/
def login (polls : Nat → String) (interval : Nat) : LoginResult :=
  pollLoopAux polls interval maxAttempts 0 0 "pending"

/-- Whether `login` reports success: only the final status `complete`
does; every other final status (including `pending` at budget
exhaustion) fails the login operation. -/
def loginSucceeds (r : LoginResult) : Bool :=
  r.status == "complete"

/-- Concrete model that requests one `read_file` tool call on every
pass. -/
def cwModelAllTools : List Message → List StreamChunk :=
  fun _ => [⟨none, some [⟨"call-1", "read_file", "\x7b\"path\":\"/tmp/x\"\x7d"⟩]⟩]

/-- Concrete model that streams text across two chunks and no tool
calls. -/
def cwModelText : List Message → List StreamChunk :=
  fun _ => [⟨some "  hi", none⟩, ⟨some "  ", none⟩]

/-- Concrete file system that fails every read. -/
def cwFsError : String → Except String String :=
  fun _ => Except.error "boom"

/-- Concrete file system with a single readable file. -/
def cwFsOk : String → Except String String :=
  fun p => if p = "/a" then Except.ok "hello" else Except.error "boom"

/-- Concrete pending tool calls: one failing `read_file` and one
unrecognized tool. -/
def cwToolCalls : List ToolCall :=
  [⟨"1", "read_file", "\x7b\"path\":\"/missing\"\x7d"⟩, ⟨"2", "shell", "\x7b\x7d"⟩]

/-- Concrete fragment batches: a later batch with empty id must not
blank the id set by the first batch. -/
def cwBatches : List (List ToolCallFrag) :=
  [[⟨"a", "", "x"⟩], [⟨"", "f", "y"⟩]]

/-- Concrete fragment batch whose first fragment has no id. -/
def cwFragBatch : List (List ToolCallFrag) :=
  [[⟨"", "read_file", "\x7b\x7d"⟩]]

/-- Concrete poll results: pending three times, then complete. -/
def cwPolls : Nat → String :=
  fun n => if n < 3 then "pending" else "complete"

/-- Concrete payload whose delta carries non-empty content. -/
def cwDeltaPayload : List Char :=
  ("\x7b\"choices\":[\x7b\"delta\":\x7b\"content\":\"hi\"\x7d\x7d]\x7d").toList

/-- Concrete framed line carrying non-empty content. -/
def cwGoodLine : List Char :=
  ("data: \x7b\"choices\":[\x7b\"delta\":\x7b\"content\":\"ok\"\x7d\x7d]\x7d").toList

/-- Concrete trailing bytes after the sentinel that would otherwise
produce an event. -/
def cwTailBytes : List Char :=
  ("data: \x7b\"choices\":[\x7b\"delta\":\x7b\"content\":\"later\"\x7d\x7d]\x7d\n").toList

/-- Concrete malformed payload. -/
def cwBadPayload : List Char := ("nope").toList

theorem headCons_ne_nil (x : List Char) (ys : List (List Char)) : headCons x ys ≠ [] := by
  cases ys <;> simp [headCons]

theorem splitNl_ne_nil (s : List Char) : splitNl s ≠ [] := by
  induction s with
  | nil => simp [splitNl]
  | cons c cs ih =>
    unfold splitNl
    split
    · simp
    · split <;> simp

theorem splitNl_cons_nl (s : List Char) : splitNl ('\n' :: s) = [] :: splitNl s := by
  simp [splitNl]

theorem splitNl_cons_ne (c : Char) (s : List Char) (hc : c ≠ '\n')
    (hd : List Char) (tl : List (List Char)) (hs : splitNl s = hd :: tl) :
    splitNl (c :: s) = (c :: hd) :: tl := by
  simp [splitNl, hc, hs]

theorem splitNl_append (a b : List Char) :
    splitNl (a ++ b) =
      (splitNl a).dropLast ++ headCons ((splitNl a).getLast?.getD []) (splitNl b) := by
  induction a with
  | nil =>
    cases h : splitNl b with
    | nil => exact absurd h (splitNl_ne_nil b)
    | cons bh bt => simp [splitNl, headCons, h]
  | cons c a ih =>
    by_cases hc : c = '\n'
    · subst hc
      rw [List.cons_append, splitNl_cons_nl, splitNl_cons_nl, ih]
      cases h : splitNl a with
      | nil => exact absurd h (splitNl_ne_nil a)
      | cons ah at' => simp [h, List.dropLast_cons₂, List.getLast?_cons_cons]
    · cases ha : splitNl a with
      | nil => exact absurd ha (splitNl_ne_nil a)
      | cons ah at' =>
        rw [splitNl_cons_ne c a hc ah at' ha] at *
        cases at' with
        | nil =>
          cases hb : splitNl b with
          | nil => exact absurd hb (splitNl_ne_nil b)
          | cons bh bt =>
            have hab : splitNl (a ++ b) = (ah ++ bh) :: bt := by
              rw [ih, ha, hb]; simp [headCons]
            rw [List.cons_append, splitNl_cons_ne c (a ++ b) hc (ah ++ bh) bt hab]
            simp [headCons]
        | cons ah2 at2 =>
          have hab : splitNl (a ++ b) =
              ah :: ((ah2 :: at2).dropLast ++
                headCons ((ah2 :: at2).getLast?.getD []) (splitNl b)) := by
            rw [ih, ha]
            simp [List.dropLast_cons₂, List.getLast?_cons_cons]
          rw [List.cons_append, splitNl_cons_ne c (a ++ b) hc _ _ hab]
          simp [List.dropLast_cons₂, List.getLast?_cons_cons]

theorem splitNl_no_nl (s : List Char) : ∀ l ∈ splitNl s, '\n' ∉ l := by
  induction s with
  | nil => simp [splitNl]
  | cons c cs ih =>
    by_cases hc : c = '\n'
    · subst hc
      rw [splitNl_cons_nl]
      intro l hl
      rcases List.mem_cons.mp hl with rfl | hl2
      · simp
      · exact ih l hl2
    · cases h : splitNl cs with
      | nil => exact absurd h (splitNl_ne_nil cs)
      | cons hd tl =>
        rw [splitNl_cons_ne c cs hc hd tl h]
        intro l hl
        rcases List.mem_cons.mp hl with rfl | hl2
        · have hhd : '\n' ∉ hd := ih hd (h ▸ List.mem_cons_self hd tl)
          simp [hc, Ne.symm hc, hhd]
        · exact ih l (h ▸ List.mem_cons_of_mem hd hl2)

theorem splitNl_single (s : List Char) (h : '\n' ∉ s) : splitNl s = [s] := by
  induction s with
  | nil => simp [splitNl]
  | cons c cs ih =>
    have hc : c ≠ '\n' := fun hc => h (hc ▸ List.mem_cons_self c cs)
    have hcs : '\n' ∉ cs := fun hm => h (List.mem_cons_of_mem c hm)
    rw [splitNl_cons_ne c cs hc cs [] (ih hcs)]

theorem splitNl_getLast_no_nl (s : List Char) : '\n' ∉ (splitNl s).getLast?.getD [] := by
  cases h : (splitNl s).getLast? with
  | none => simp
  | some x =>
    simp only [Option.getD_some]
    exact splitNl_no_nl s x (List.mem_of_mem_getLast? h)

theorem processLines_append (l1 l2 : List (List Char)) :
    processLines (l1 ++ l2) =
      ((processLines l1).1 ++ (if (processLines l1).2 then [] else (processLines l2).1),
       if (processLines l1).2 then true else (processLines l2).2) := by
  induction l1 with
  | nil => simp [processLines]
  | cons l rest ih =>
    cases h : processLine l with
    | done => simp [processLines, h]
    | skip =>
      simp only [List.cons_append, processLines, h, List.append_eq]
      exact ih
    | emit e =>
      simp only [List.cons_append, processLines, h, List.append_eq]
      rw [ih]

/-- Main characterization of the chunk loop: for a buffer that holds no
newline (the loop invariant), the emitted events are exactly those of the
complete lines of the whole remaining text. -/
theorem decodeChunks_eq (chunks : List (List Char)) :
    ∀ buffer : List Char, '\n' ∉ buffer →
      decodeChunks buffer chunks = (processLines (completeLines (buffer ++ chunks.flatten))).1 := by
  induction chunks with
  | nil =>
    intro buffer h
    simp [decodeChunks, completeLines, splitNl_single buffer h, processLines]
  | cons c rest ih =>
    intro buffer h
    have hnbnl : '\n' ∉ (splitNl (buffer ++ c)).getLast?.getD [] :=
      splitNl_getLast_no_nl (buffer ++ c)
    have hkey : completeLines (buffer ++ (c :: rest).flatten)
        = (splitNl (buffer ++ c)).dropLast ++
          completeLines ((splitNl (buffer ++ c)).getLast?.getD [] ++ rest.flatten) := by
      have h1 : buffer ++ (c :: rest).flatten = (buffer ++ c) ++ rest.flatten := by
        simp [List.flatten_cons, List.append_assoc]
      rw [h1]
      unfold completeLines
      rw [splitNl_append (buffer ++ c) rest.flatten,
        List.dropLast_append_of_ne_nil _ (headCons_ne_nil _ _)]
      congr 1
      rw [splitNl_append ((splitNl (buffer ++ c)).getLast?.getD []) rest.flatten,
        splitNl_single _ hnbnl]
      simp
    rw [hkey, processLines_append]
    show (if (processLines (splitNl (buffer ++ c)).dropLast).2 then
            (processLines (splitNl (buffer ++ c)).dropLast).1
          else (processLines (splitNl (buffer ++ c)).dropLast).1 ++
            decodeChunks ((splitNl (buffer ++ c)).getLast?.getD []) rest) = _
    by_cases hd : (processLines (splitNl (buffer ++ c)).dropLast).2
    · simp [hd]
    · simp [hd, ih _ hnbnl]

/-- Decoding a single chunk processes exactly its complete lines. -/
theorem chatStream_single (s : List Char) :
    chatStream [s] = (processLines (completeLines s)).1 := by
  show decodeChunks [] [s] = _
  rw [decodeChunks_eq [s] [] (by simp)]
  simp

theorem processLine_done : processLine (dataMarker ++ doneChars) = LineResult.done := rfl

theorem processLine_skip_of_parse_fail (payload : List Char) (hnd : payload ≠ doneChars)
    (hp : parseJson payload = none) :
    processLine (dataMarker ++ payload) = LineResult.skip := by
  show processLine ('d' :: 'a' :: 't' :: 'a' :: ':' :: ' ' :: payload) = _
  simp [processLine, hnd, hp]

theorem processLines_no_done (ls : List (List Char))
    (h : ∀ l ∈ ls, processLine l ≠ LineResult.done) : (processLines ls).2 = false := by
  induction ls with
  | nil => rfl
  | cons l rest ih =>
    have hl := h l (List.mem_cons_self l rest)
    have hr : ∀ x ∈ rest, processLine x ≠ LineResult.done :=
      fun x hx => h x (List.mem_cons_of_mem l hx)
    cases he : processLine l with
    | done => exact absurd he hl
    | skip =>
      simp only [processLines, he]
      exact ih hr
    | emit e =>
      simp only [processLines, he]
      exact ih hr

theorem processLines_skip_middle (b : List Char) (hb : processLine b = LineResult.skip)
    (pre post : List (List Char)) :
    processLines (pre ++ b :: post) = processLines (pre ++ post) := by
  induction pre with
  | nil => simp only [List.nil_append, processLines, hb]
  | cons l rest ih =>
    cases he : processLine l with
    | done => simp only [List.cons_append, processLines, he]
    | skip =>
      simp only [List.cons_append, processLines, he]
      exact ih
    | emit e =>
      simp only [List.cons_append, processLines, he, List.append_eq]
      rw [ih]

theorem splitNl_linesJoin (pre : List (List Char)) (tail : List Char)
    (h : ∀ l ∈ pre, '\n' ∉ l) :
    splitNl (linesJoin pre ++ tail) = pre ++ splitNl tail := by
  induction pre with
  | nil => simp [linesJoin]
  | cons l ps ih =>
    have hl : '\n' ∉ l := h l (List.mem_cons_self l ps)
    have hps : ∀ x ∈ ps, '\n' ∉ x := fun x hx => h x (List.mem_cons_of_mem l hx)
    have hshape : linesJoin (l :: ps) ++ tail = l ++ ('\n' :: (linesJoin ps ++ tail)) := by
      simp [linesJoin, List.flatten_cons, List.append_assoc]
    rw [hshape, splitNl_append l ('\n' :: (linesJoin ps ++ tail)), splitNl_single l hl,
      splitNl_cons_nl]
    simp [headCons, ih hps]

theorem completeLines_linesJoin (ls : List (List Char)) (h : ∀ l ∈ ls, '\n' ∉ l) :
    completeLines (linesJoin ls) = ls := by
  unfold completeLines
  have hsplit := splitNl_linesJoin ls [] h
  rw [List.append_nil] at hsplit
  rw [hsplit]
  simp [splitNl]

/-- C3: for every finite stream and every way of splitting it into
chunks (including one character per chunk), the decoder emits the same
event sequence as decoding the whole text in a single chunk: trailing
partial lines are held back across chunk boundaries and only complete
newline-terminated lines are processed. -/
theorem decoder_chunk_independence (chunks : List (List Char)) :
    chatStream chunks = chatStream [chunks.flatten] := by
  show decodeChunks [] chunks = decodeChunks [] [chunks.flatten]
  rw [decodeChunks_eq chunks [] (by simp), decodeChunks_eq [chunks.flatten] [] (by simp)]
  simp

/-- C4: once a complete framed line carries the sentinel payload
`[DONE]`, the emitted event sequence ends: no event is produced from any
later line or byte, and buffered bytes are discarded. -/
theorem sentinel_termination (pre : List (List Char)) (suffix : List Char)
    (hnl : ∀ l ∈ pre, '\n' ∉ l)
    (hnd : ∀ l ∈ pre, processLine l ≠ LineResult.done) :
    chatStream [linesJoin pre ++ (dataMarker ++ doneChars ++ ['\n']) ++ suffix]
      = chatStream [linesJoin pre] := by
  rw [chatStream_single, chatStream_single, completeLines_linesJoin pre hnl]
  have hshape : linesJoin pre ++ (dataMarker ++ doneChars ++ ['\n']) ++ suffix
      = linesJoin pre ++ ((dataMarker ++ doneChars) ++ ('\n' :: suffix)) := by
    simp [List.append_assoc]
  rw [hshape]
  have hL : completeLines (linesJoin pre ++ ((dataMarker ++ doneChars) ++ ('\n' :: suffix)))
      = pre ++ (dataMarker ++ doneChars) :: completeLines suffix := by
    unfold completeLines
    rw [splitNl_linesJoin pre _ hnl,
      splitNl_append (dataMarker ++ doneChars) ('\n' :: suffix),
      splitNl_single (dataMarker ++ doneChars) (by decide), splitNl_cons_nl]
    cases hs : splitNl suffix with
    | nil => exact absurd hs (splitNl_ne_nil suffix)
    | cons sh st =>
      simp [headCons, List.dropLast_append_of_ne_nil]
  rw [hL, processLines_append]
  simp [processLines_no_done pre hnd, processLines, processLine_done]

/-- C6: a framed line whose payload fails JSON parsing is skipped and the
stream continues: the emitted events are exactly those of the remaining
lines, and a malformed line never aborts or truncates the stream. -/
theorem malformed_line_tolerance (pre post : List (List Char)) (payload : List Char)
    (hnlPre : ∀ l ∈ pre, '\n' ∉ l) (hnlPost : ∀ l ∈ post, '\n' ∉ l)
    (hnlBad : '\n' ∉ payload)
    (hnotDone : payload ≠ doneChars)
    (hparse : parseJson payload = none) :
    chatStream [linesJoin (pre ++ (dataMarker ++ payload) :: post)]
      = chatStream [linesJoin (pre ++ post)] := by
  have hbad : '\n' ∉ dataMarker ++ payload := by
    intro hmem
    rcases List.mem_append.mp hmem with hm | hm
    · revert hm
      decide
    · exact hnlBad hm
  have hAll : ∀ l ∈ pre ++ (dataMarker ++ payload) :: post, '\n' ∉ l := by
    intro l hl
    rcases List.mem_append.mp hl with h1 | h2
    · exact hnlPre l h1
    · rcases List.mem_cons.mp h2 with rfl | h3
      · exact hbad
      · exact hnlPost l h3
  have hAll2 : ∀ l ∈ pre ++ post, '\n' ∉ l := by
    intro l hl
    rcases List.mem_append.mp hl with h1 | h2
    · exact hnlPre l h1
    · exact hnlPost l h2
  rw [chatStream_single, chatStream_single, completeLines_linesJoin _ hAll,
    completeLines_linesJoin _ hAll2,
    processLines_skip_middle _ (processLine_skip_of_parse_fail payload hnotDone hparse)]

/-- C5, counterexample: the decoder emits an event for a parsed line
whose delta carries empty text and an empty tool-call fragment list
(JavaScript treats an empty array as truthy), so emission is not
equivalent to carrying non-empty text or at least one fragment. -/
theorem delta_suppression_cex :
    chatStream [cexSuppressionLine ++ ['\n']]
      = [⟨some (Json.str ""), some (Json.arr [])⟩] ∧
    carriesPayload ⟨some (Json.str ""), some (Json.arr [])⟩ = false :=
  ⟨rfl, rfl⟩

/-- C5, amended: a successfully parsed framed line whose delta is an
object with string content field yields a delta event if and only if the
content is non-empty or the delta has a `tool_calls` array field at all,
even an empty one. -/
theorem delta_emission_amended (payload : List Char) (j : Json)
    (fields : List (String × Json)) (s : String) (tcOpt : Option (List Json))
    (hnd : payload ≠ doneChars)
    (hp : parseJson payload = some j)
    (hdelta : deltaOf j = some (Json.obj fields))
    (hc : lookupField fields "content" = some (Json.str s))
    (htc : (lookupField fields "tool_calls" = none ∧ tcOpt = none) ∨
           (∃ l, lookupField fields "tool_calls" = some (Json.arr l) ∧ tcOpt = some l)) :
    (∃ e, processLine (dataMarker ++ payload) = LineResult.emit e)
      ↔ (s ≠ "" ∨ tcOpt.isSome) := by
  have hline : processLine (dataMarker ++ payload)
      = (if jsTruthy (Json.obj fields) &&
            (jsTruthyOpt (jfield (Json.obj fields) "content") ||
             jsTruthyOpt (jfield (Json.obj fields) "tool_calls")) then
           LineResult.emit
             ⟨jfield (Json.obj fields) "content", jfield (Json.obj fields) "tool_calls"⟩
         else LineResult.skip) := by
    show processLine ('d' :: 'a' :: 't' :: 'a' :: ':' :: ' ' :: payload) = _
    simp [processLine, hnd, hp, hdelta]
  rcases htc with ⟨htc1, rfl⟩ | ⟨l, htc1, rfl⟩
  · rw [hline]
    have hcond : (jsTruthy (Json.obj fields) &&
        (jsTruthyOpt (jfield (Json.obj fields) "content") ||
         jsTruthyOpt (jfield (Json.obj fields) "tool_calls"))) = !s.isEmpty := by
      simp [jfield, hc, htc1, jsTruthy, jsTruthyOpt]
    rw [hcond]
    by_cases hs : s = ""
    · have hE : s.isEmpty = true := (String.isEmpty_iff s).mpr hs
      rw [hE]
      simp [hs]
    · have hE : s.isEmpty = false := by
        cases h : s.isEmpty
        · rfl
        · exact absurd ((String.isEmpty_iff s).mp h) hs
      rw [hE]
      simp [hs]
  · rw [hline]
    have hcond : (jsTruthy (Json.obj fields) &&
        (jsTruthyOpt (jfield (Json.obj fields) "content") ||
         jsTruthyOpt (jfield (Json.obj fields) "tool_calls"))) = true := by
      simp [jfield, hc, htc1, jsTruthy, jsTruthyOpt]
    rw [hcond]
    simp

theorem setAt_getElem_self (l : List ToolCall) (i : Nat) (v : ToolCall) (h : i ≤ l.length) :
    (setAt l i v)[i]? = some v := by
  induction l generalizing i with
  | nil =>
    obtain rfl := Nat.le_zero.mp h
    simp [setAt]
  | cons x xs ih =>
    cases i with
    | zero => simp [setAt]
    | succ i =>
      show (x :: setAt xs i v)[i + 1]? = some v
      rw [List.getElem?_cons_succ]
      exact ih i (Nat.le_of_succ_le_succ h)

theorem setAt_getElem_ne (l : List ToolCall) (i : Nat) (v : ToolCall) (k : Nat)
    (h : i ≤ l.length) (hk : k ≠ i) : (setAt l i v)[k]? = l[k]? := by
  induction l generalizing i k with
  | nil =>
    obtain rfl := Nat.le_zero.mp h
    cases k with
    | zero => exact absurd rfl hk
    | succ k => simp [setAt]
  | cons x xs ih =>
    cases i with
    | zero =>
      cases k with
      | zero => exact absurd rfl hk
      | succ k => simp [setAt]
    | succ i =>
      cases k with
      | zero => simp [setAt]
      | succ k =>
        show (x :: setAt xs i v)[k + 1]? = (x :: xs)[k + 1]?
        rw [List.getElem?_cons_succ, List.getElem?_cons_succ]
        exact ih i k (Nat.le_of_succ_le_succ h) (fun he => hk (congrArg Nat.succ he))

theorem setAt_length_ge (l : List ToolCall) (i : Nat) (v : ToolCall) (h : i ≤ l.length) :
    i + 1 ≤ (setAt l i v).length := by
  induction l generalizing i with
  | nil =>
    obtain rfl := Nat.le_zero.mp h
    simp [setAt]
  | cons x xs ih =>
    cases i with
    | zero => simp [setAt]
    | succ i =>
      show i + 1 + 1 ≤ (x :: setAt xs i v).length
      simp only [List.length_cons]
      exact Nat.succ_le_succ (ih i (Nat.le_of_succ_le_succ h))

theorem mergeGo_getElem_lt (updates : List ToolCallFrag) :
    ∀ (merged : List ToolCall) (i k : Nat), i ≤ merged.length → k < i →
      (mergeGo merged i updates)[k]? = merged[k]? := by
  induction updates with
  | nil => intro merged i k _ _; rfl
  | cons u rest ih =>
    intro merged i k h hk
    show (mergeGo (setAt merged i (mergeSlot i merged[i]? u)) (i + 1) rest)[k]? = merged[k]?
    rw [ih _ (i + 1) k (setAt_length_ge merged i _ h) (Nat.lt_succ_of_lt hk)]
    exact setAt_getElem_ne merged i _ k h (Nat.ne_of_lt hk)

theorem mergeGo_getElem_ge (updates : List ToolCallFrag) :
    ∀ (merged : List ToolCall) (i k : Nat), i ≤ merged.length → i ≤ k →
      (mergeGo merged i updates)[k]? =
        match updates[k - i]? with
        | none => merged[k]?
        | some u => some (mergeSlot k merged[k]? u) := by
  induction updates with
  | nil => intro merged i k _ _; simp [mergeGo]
  | cons u rest ih =>
    intro merged i k h hik
    show (mergeGo (setAt merged i (mergeSlot i merged[i]? u)) (i + 1) rest)[k]? = _
    by_cases hk : k = i
    · subst hk
      rw [mergeGo_getElem_lt rest _ (k + 1) k (setAt_length_ge merged k _ h) (Nat.lt_succ_self k)]
      rw [setAt_getElem_self merged k _ h]
      simp
    · have hik1 : i + 1 ≤ k := Nat.succ_le_of_lt (Nat.lt_of_le_of_ne hik (fun he => hk he.symm))
      rw [ih _ (i + 1) k (setAt_length_ge merged i _ h) hik1,
        setAt_getElem_ne merged i _ k h hk]
      have harith : k - i = (k - (i + 1)) + 1 := by omega
      rw [harith, List.getElem?_cons_succ]

theorem accumulate_getElem (batches : List (List ToolCallFrag)) :
    ∀ (existing : List ToolCall) (k : Nat),
      (batches.foldl mergeToolCalls existing)[k]? =
        (slotFrags k batches).foldl (fun acc u => some (mergeSlot k acc u)) existing[k]? := by
  induction batches with
  | nil => intro existing k; rfl
  | cons b rest ih =>
    intro existing k
    rw [List.foldl_cons, ih]
    have h0 := mergeGo_getElem_ge b existing 0 k (Nat.zero_le _) (Nat.zero_le _)
    rw [Nat.sub_zero] at h0
    cases hb : b[k]? with
    | none =>
      rw [hb] at h0
      have h1 : (mergeToolCalls existing b)[k]? = existing[k]? := h0
      rw [h1]
      simp [slotFrags, List.filterMap_cons, hb]
    | some u =>
      rw [hb] at h0
      have h1 : (mergeToolCalls existing b)[k]? = some (mergeSlot k existing[k]? u) := h0
      rw [h1]
      have h2 : slotFrags k (b :: rest) = u :: slotFrags k rest := by
        simp [slotFrags, List.filterMap_cons, hb]
      rw [h2, List.foldl_cons]

theorem slotStep_id (k : Nat) (c : ToolCall) (u : ToolCallFrag) :
    (slotStep k c u).id = if u.id = "" then c.id else u.id := rfl

theorem slotStep_name (k : Nat) (c : ToolCall) (u : ToolCallFrag) :
    (slotStep k c u).name = if u.name = "" then c.name else u.name := rfl

theorem slotStep_args (k : Nat) (c : ToolCall) (u : ToolCallFrag) :
    (slotStep k c u).arguments = c.arguments ++ u.arguments := rfl

theorem foldl_mergeSlot_some (k : Nat) (frags : List ToolCallFrag) :
    ∀ c0 : ToolCall,
      frags.foldl (fun acc u => some (mergeSlot k acc u)) (some c0)
        = some (frags.foldl (slotStep k) c0) := by
  induction frags with
  | nil => intro c0; rfl
  | cons u rest ih =>
    intro c0
    rw [List.foldl_cons, List.foldl_cons, ih]
    rfl

theorem mergeSlot_none_eq (k : Nat) (u : ToolCallFrag) :
    mergeSlot k none u = slotStep k ⟨"tool-" ++ toString k, "", ""⟩ u := by
  by_cases h : u.id = "" <;> simp [mergeSlot, slotStep, defaultSlot, h]

theorem foldl_slotStep_id (k : Nat) (frags : List ToolCallFrag) :
    ∀ c0 : ToolCall,
      (frags.foldl (slotStep k) c0).id = lastNonEmpty c0.id (frags.map ToolCallFrag.id) := by
  induction frags with
  | nil => intro c0; rfl
  | cons u rest ih =>
    intro c0
    rw [List.foldl_cons, ih, List.map_cons]
    show _ = (u.id :: rest.map ToolCallFrag.id).foldl (fun acc s => if s = "" then acc else s) c0.id
    rw [List.foldl_cons, slotStep_id]
    rfl

theorem foldl_slotStep_name (k : Nat) (frags : List ToolCallFrag) :
    ∀ c0 : ToolCall,
      (frags.foldl (slotStep k) c0).name = lastNonEmpty c0.name (frags.map ToolCallFrag.name) := by
  induction frags with
  | nil => intro c0; rfl
  | cons u rest ih =>
    intro c0
    rw [List.foldl_cons, ih, List.map_cons]
    show _ = (u.name :: rest.map ToolCallFrag.name).foldl (fun acc s => if s = "" then acc else s) c0.name
    rw [List.foldl_cons, slotStep_name]
    rfl

theorem foldl_append_string (l : List String) :
    ∀ a : String, l.foldl (fun r s => r ++ s) a = a ++ String.join l := by
  induction l with
  | nil => intro a; exact (String.append_empty a).symm
  | cons x xs ih =>
    intro a
    rw [List.foldl_cons, ih]
    show a ++ x ++ String.join xs = a ++ String.join (x :: xs)
    have hx : String.join (x :: xs) = x ++ String.join xs := by
      show (x :: xs).foldl (fun r s => r ++ s) "" = x ++ String.join xs
      rw [List.foldl_cons, ih]
      rfl
    rw [hx, String.append_assoc]

theorem string_join_cons (x : String) (xs : List String) :
    String.join (x :: xs) = x ++ String.join xs := by
  show (x :: xs).foldl (fun r s => r ++ s) "" = x ++ String.join xs
  rw [List.foldl_cons, foldl_append_string]
  rfl

theorem foldl_slotStep_args (k : Nat) (frags : List ToolCallFrag) :
    ∀ c0 : ToolCall,
      (frags.foldl (slotStep k) c0).arguments
        = c0.arguments ++ String.join (frags.map ToolCallFrag.arguments) := by
  induction frags with
  | nil => intro c0; exact (String.append_empty c0.arguments).symm
  | cons u rest ih =>
    intro c0
    rw [List.foldl_cons, ih, slotStep_args, List.map_cons, string_join_cons,
      String.append_assoc]

theorem lastNonEmpty_ne_empty (l : List String) :
    ∀ d : String, d ≠ "" → lastNonEmpty d l ≠ "" := by
  induction l with
  | nil => intro d h; exact h
  | cons x xs ih =>
    intro d h
    by_cases hx : x = ""
    · rw [show lastNonEmpty d (x :: xs) = lastNonEmpty d xs from by
        simp [lastNonEmpty, List.foldl_cons, hx]]
      exact ih d h
    · rw [show lastNonEmpty d (x :: xs) = lastNonEmpty x xs from by
        simp [lastNonEmpty, List.foldl_cons, hx]]
      exact ih x hx

theorem synthetic_id_ne_empty (s : String) : ("tool-" ++ s) ≠ "" := by
  intro h
  have hlen := congrArg String.length h
  rw [String.length_append] at hlen
  have h5 : ("tool-" : String).length = 5 := rfl
  have h0 : ("" : String).length = 0 := rfl
  rw [h5, h0] at hlen
  omega

/-- Shared characterization of an accumulated slot after a whole batch
sequence: id and name are the last non-empty incoming value (with the
synthetic default for the id), arguments are the concatenation of all
incoming fragments. -/
theorem accumulate_slot_fields (batches : List (List ToolCallFrag)) (k : Nat) (c : ToolCall)
    (h : (accumulate batches)[k]? = some c) :
    c.id = lastNonEmpty ("tool-" ++ toString k) ((slotFrags k batches).map ToolCallFrag.id) ∧
    c.name = lastNonEmpty "" ((slotFrags k batches).map ToolCallFrag.name) ∧
    c.arguments = String.join ((slotFrags k batches).map ToolCallFrag.arguments) := by
  have hacc : (accumulate batches)[k]? =
      (slotFrags k batches).foldl (fun acc u => some (mergeSlot k acc u)) none := by
    have hx := accumulate_getElem batches [] k
    rw [List.getElem?_nil] at hx
    exact hx
  rw [hacc] at h
  cases hf : slotFrags k batches with
  | nil =>
    rw [hf] at h
    exact absurd h (by simp)
  | cons u rest =>
    rw [hf, List.foldl_cons, mergeSlot_none_eq, foldl_mergeSlot_some] at h
    have hc : c = rest.foldl (slotStep k) (slotStep k ⟨"tool-" ++ toString k, "", ""⟩ u) :=
      (Option.some.inj h).symm
    have hfold : rest.foldl (slotStep k) (slotStep k ⟨"tool-" ++ toString k, "", ""⟩ u)
        = (u :: rest).foldl (slotStep k) ⟨"tool-" ++ toString k, "", ""⟩ := rfl
    refine ⟨?_, ?_, ?_⟩
    · rw [hc, hfold, foldl_slotStep_id]
    · rw [hc, hfold, foldl_slotStep_name]
    · rw [hc, hfold, foldl_slotStep_args]
      rfl

/-- C2: for every slot of the tool-call accumulator and every sequence
of incoming fragment batches merged into it, the slot id and name equal
the last non-empty incoming value (so an empty fragment never blanks a
previously set value and only a non-empty fragment replaces it), while
the arguments text is the concatenation of every incoming arguments
fragment in arrival order, empty fragments included. -/
theorem mergeToolCalls_slot_spec (batches : List (List ToolCallFrag)) (k : Nat) (c : ToolCall)
    (h : (accumulate batches)[k]? = some c) :
    c.id = lastNonEmpty ("tool-" ++ toString k) ((slotFrags k batches).map ToolCallFrag.id) ∧
    c.name = lastNonEmpty "" ((slotFrags k batches).map ToolCallFrag.name) ∧
    c.arguments = String.join ((slotFrags k batches).map ToolCallFrag.arguments) ∧
    (∀ (cur : ToolCall) (u : ToolCallFrag), u.id = "" →
      (mergeSlot k (some cur) u).id = cur.id) ∧
    (∀ (cur : ToolCall) (u : ToolCallFrag), u.id ≠ "" →
      (mergeSlot k (some cur) u).id = u.id) ∧
    (∀ (cur : ToolCall) (u : ToolCallFrag), u.name = "" →
      (mergeSlot k (some cur) u).name = cur.name) ∧
    (∀ (cur : ToolCall) (u : ToolCallFrag), u.name ≠ "" →
      (mergeSlot k (some cur) u).name = u.name) ∧
    (∀ (cur : ToolCall) (u : ToolCallFrag),
      (mergeSlot k (some cur) u).arguments = cur.arguments ++ u.arguments) := by
  obtain ⟨hid, hname, hargs⟩ := accumulate_slot_fields batches k c h
  refine ⟨hid, hname, hargs, ?_, ?_, ?_, ?_, ?_⟩
  · intro cur u hu; simp [mergeSlot, hu]
  · intro cur u hu; simp [mergeSlot, hu]
  · intro cur u hu; simp [mergeSlot, hu]
  · intro cur u hu; simp [mergeSlot, hu]
  · intro cur u; rfl

/-- C2 witness: two batches for slot 0; the second batch has an empty id
(kept) and a non-empty name (replaces), and the arguments concatenate. -/
theorem mergeToolCalls_slot_spec_witness :
    (accumulate cwBatches)[0]? = some ⟨"a", "f", "xy"⟩ ∧
    (⟨"a", "f", "xy"⟩ : ToolCall).id
      = lastNonEmpty ("tool-" ++ toString 0) ((slotFrags 0 cwBatches).map ToolCallFrag.id) ∧
    (⟨"a", "f", "xy"⟩ : ToolCall).name
      = lastNonEmpty "" ((slotFrags 0 cwBatches).map ToolCallFrag.name) ∧
    (⟨"a", "f", "xy"⟩ : ToolCall).arguments
      = String.join ((slotFrags 0 cwBatches).map ToolCallFrag.arguments) :=
  ⟨rfl, (mergeToolCalls_slot_spec cwBatches 0 ⟨"a", "f", "xy"⟩ rfl).1,
    (mergeToolCalls_slot_spec cwBatches 0 ⟨"a", "f", "xy"⟩ rfl).2.1,
    (mergeToolCalls_slot_spec cwBatches 0 ⟨"a", "f", "xy"⟩ rfl).2.2.1⟩

/-- C10: every accumulated tool-call record has a non-empty id: a first
fragment without an id receives the synthetic id `tool-<index>`, and
every tool-result message built from accumulated calls carries a
non-empty `tool_call_id`. -/
theorem accumulated_id_invariant :
    (∀ batches : List (List ToolCallFrag), ∀ tc ∈ accumulate batches, tc.id ≠ "") ∧
    (∀ (k : Nat) (u : ToolCallFrag), u.id = "" →
      (mergeSlot k none u).id = "tool-" ++ toString k) ∧
    (∀ (batches : List (List ToolCallFrag)) (fs : String → Except String String),
      ∀ m ∈ resolveToolCalls fs (accumulate batches),
        ∃ s, m.tool_call_id = some s ∧ s ≠ "") := by
  have hid : ∀ batches : List (List ToolCallFrag), ∀ tc ∈ accumulate batches, tc.id ≠ "" := by
    intro batches tc htc
    obtain ⟨n, hn⟩ := List.mem_iff_getElem?.mp htc
    rw [(accumulate_slot_fields batches n tc hn).1]
    exact lastNonEmpty_ne_empty _ _ (synthetic_id_ne_empty _)
  refine ⟨hid, ?_, ?_⟩
  · intro k u hu
    simp [mergeSlot, defaultSlot, hu]
  · intro batches fs m hm
    obtain ⟨tc, htc, rfl⟩ := List.mem_map.mp hm
    exact ⟨tc.id, rfl, hid batches tc htc⟩

/-- C10 witness: a batch whose only fragment has no id yields the
synthetic id `tool-0`, and the resulting tool-result message carries it. -/
theorem accumulated_id_invariant_witness :
    accumulate cwFragBatch = [⟨"tool-0", "read_file", "\x7b\x7d"⟩] ∧
    (⟨"tool-0", "read_file", "\x7b\x7d"⟩ : ToolCall).id ≠ "" ∧
    (mergeSlot 3 none ⟨"", "n", "a"⟩).id = "tool-" ++ toString 3 ∧
    (∃ s, (toolResultMessage cwFsError ⟨"tool-0", "read_file", "\x7b\x7d"⟩).tool_call_id
        = some s ∧ s ≠ "") := by
  refine ⟨rfl, ?_, accumulated_id_invariant.2.1 3 ⟨"", "n", "a"⟩ rfl, ?_⟩
  · exact accumulated_id_invariant.1 cwFragBatch ⟨"tool-0", "read_file", "\x7b\x7d"⟩
      (by rw [show accumulate cwFragBatch = [⟨"tool-0", "read_file", "\x7b\x7d"⟩] from rfl]
          exact List.mem_singleton.mpr rfl)
  · exact accumulated_id_invariant.2.2 cwFragBatch cwFsError
      (toolResultMessage cwFsError ⟨"tool-0", "read_file", "\x7b\x7d"⟩)
      (by rw [show resolveToolCalls cwFsError (accumulate cwFragBatch)
            = [toolResultMessage cwFsError ⟨"tool-0", "read_file", "\x7b\x7d"⟩] from rfl]
          exact List.mem_singleton.mpr rfl)

/-- C8: executing pending tool calls always appends exactly one textual
tool-result message per call, correlated by id and name; a tool name
other than `read_file` yields the textual not-implemented result, and a
failure inside the `read_file` handler is caught and converted to a
textual error result appended exactly like a success result — nothing
ever raises across the orchestrator boundary (the resolver is a total
function). -/
theorem tool_execution_safety (fs : String → Except String String) (tcs : List ToolCall) :
    (resolveToolCalls fs tcs).length = tcs.length ∧
    ∀ (i : Nat) (tc : ToolCall), tcs[i]? = some tc →
      ∃ m : Message, (resolveToolCalls fs tcs)[i]? = some m ∧
        m.role = Role.function ∧ m.tool_call_id = some tc.id ∧ m.name = some tc.name ∧
        (tc.name ≠ "read_file" →
          m.content = "Tool " ++ tc.name ++ " is not implemented in the TUI.") ∧
        (tc.name = "read_file" →
          m.content = handleReadFile fs tc (some (parseToolArguments tc))) ∧
        (∀ (p e : String), tc.name = "read_file" →
          jfield (parseToolArguments tc) "path" = some (Json.str p) → p ≠ "" →
          fs p = Except.error e → m.content = "Error reading file: " ++ e) := by
  refine ⟨List.length_map _ _, ?_⟩
  intro i tc hi
  refine ⟨toolResultMessage fs tc, ?_, rfl, rfl, rfl, ?_, ?_, ?_⟩
  · rw [resolveToolCalls, List.getElem?_map, hi]
    rfl
  · intro hn
    simp [toolResultMessage, hn]
  · intro hn
    simp [toolResultMessage, hn]
  · intro p e hn hp hpne hfs
    simp [toolResultMessage, hn, handleReadFile, hp, hpne, hfs]

/-- C8 witness: a failing `read_file` call becomes a textual error
result and an unrecognized tool name becomes a not-implemented result,
both appended as ordinary tool-result messages. -/
theorem tool_execution_safety_witness :
    (resolveToolCalls cwFsOk cwToolCalls).length = cwToolCalls.length ∧
    (∃ m : Message, (resolveToolCalls cwFsOk cwToolCalls)[0]? = some m ∧
      m.content = "Error reading file: boom") ∧
    (∃ m : Message, (resolveToolCalls cwFsOk cwToolCalls)[1]? = some m ∧
      m.content = "Tool shell is not implemented in the TUI.") := by
  have h := tool_execution_safety cwFsOk cwToolCalls
  refine ⟨h.1, ?_, ?_⟩
  · obtain ⟨m, hm, _, _, _, _, _, herr⟩ :=
      h.2 0 ⟨"1", "read_file", "\x7b\"path\":\"/missing\"\x7d"⟩ rfl
    exact ⟨m, hm, herr "/missing" "boom" rfl rfl (by decide) rfl⟩
  · obtain ⟨m, hm, _, _, _, hni, _, _⟩ := h.2 1 ⟨"2", "shell", "\x7b\x7d"⟩ rfl
    exact ⟨m, hm, hni (by decide)⟩

/-- C7: a streaming pass that completes with zero accumulated tool calls
appends the accumulated text trimmed of trailing whitespace as the
assistant final message, and appends no assistant message at all when
that trimmed text is empty. -/
theorem empty_turn_suppression (model : List Message → List StreamChunk)
    (fs : String → Except String String) (history : List Message) (fuel : Nat)
    (hp : (processPass (model history)).2 = []) :
    runTurn model fs (fuel + 1) history =
      ⟨if (processPass (model history)).1.trimRight = "" then history
        else history ++ [assistantFinal ((processPass (model history)).1.trimRight)],
       1, false⟩ := by
  simp only [runTurn]
  rw [if_pos hp]
  by_cases ht : (processPass (model history)).1.trimRight = ""
  · rw [if_pos ht, if_pos ht]
  · rw [if_neg ht, if_neg ht]

/-- C7 witness: a pass streaming text across two chunks and no tool
calls appends exactly the trimmed concatenated text. -/
theorem empty_turn_suppression_witness :
    (processPass (cwModelText [])).2 = [] ∧
    runTurn cwModelText cwFsError 4 [] =
      ⟨if (processPass (cwModelText [])).1.trimRight = "" then ([] : List Message)
        else [] ++ [assistantFinal ((processPass (cwModelText [])).1.trimRight)],
       1, false⟩ :=
  ⟨rfl, empty_turn_suppression cwModelText cwFsError [] 3 rfl⟩

theorem runTurn_allToolPasses (model : List Message → List StreamChunk)
    (fs : String → Except String String)
    (hm : ∀ h : List Message, (processPass (model h)).2 ≠ []) :
    ∀ (n : Nat) (history : List Message),
      ∃ tp : List (String × List ToolCall),
        tp.length = n ∧ (∀ x ∈ tp, x.2 ≠ []) ∧
        (runTurn model fs n history).history
          = history ++ tp.foldr
              (fun x acc => (assistantToolMsg x.1 x.2 :: resolveToolCalls fs x.2) ++ acc) [] ∧
        (runTurn model fs n history).passes = n ∧
        (runTurn model fs n history).aborted = true := by
  intro n
  induction n with
  | zero =>
    intro history
    exact ⟨[], rfl, by simp, by simp [runTurn], rfl, rfl⟩
  | succ n ih =>
    intro history
    obtain ⟨tp, hlen, hne, hhist, hpasses, habort⟩ :=
      ih (history ++ [assistantToolMsg (processPass (model history)).1 (processPass (model history)).2]
          ++ resolveToolCalls fs (processPass (model history)).2)
    have hstep : runTurn model fs (n + 1) history =
        ⟨(runTurn model fs n
            (history ++ [assistantToolMsg (processPass (model history)).1 (processPass (model history)).2]
              ++ resolveToolCalls fs (processPass (model history)).2)).history,
         (runTurn model fs n
            (history ++ [assistantToolMsg (processPass (model history)).1 (processPass (model history)).2]
              ++ resolveToolCalls fs (processPass (model history)).2)).passes + 1,
         (runTurn model fs n
            (history ++ [assistantToolMsg (processPass (model history)).1 (processPass (model history)).2]
              ++ resolveToolCalls fs (processPass (model history)).2)).aborted⟩ := by
      simp only [runTurn]
      rw [if_neg (hm history)]
    refine ⟨((processPass (model history)).1, (processPass (model history)).2) :: tp,
      by simp [hlen], ?_, ?_, ?_, ?_⟩
    · intro x hx
      rcases List.mem_cons.mp hx with rfl | hx2
      · exact hm history
      · exact hne x hx2
    · rw [hstep]
      show (runTurn model fs n _).history = _
      rw [hhist, List.foldr_cons]
      simp [List.append_assoc]
    · rw [hstep]
      show (runTurn model fs n _).passes + 1 = n + 1
      rw [hpasses]
    · rw [hstep]
      exact habort

theorem countP_assistant_resolve (fs : String → Except String String) (l : List ToolCall) :
    (resolveToolCalls fs l).countP (fun m => m.role == Role.assistant) = 0 := by
  rw [resolveToolCalls]
  apply List.countP_eq_zero.mpr
  intro m hm
  obtain ⟨tc, _, rfl⟩ := List.mem_map.mp hm
  simp [toolResultMessage]

theorem countP_assistant_foldr (fs : String → Except String String)
    (tp : List (String × List ToolCall)) :
    (tp.foldr (fun x acc => (assistantToolMsg x.1 x.2 :: resolveToolCalls fs x.2) ++ acc)
        []).countP (fun m => m.role == Role.assistant) = tp.length := by
  induction tp with
  | nil => rfl
  | cons x rest ih =>
    rw [List.foldr_cons, List.countP_append, List.countP_cons, countP_assistant_resolve, ih]
    simp [assistantToolMsg]
    omega

/-- C1: for a model that requests at least one tool call on every
streaming pass, the orchestrator performs exactly 4 streaming passes and
stops: the transcript gains exactly 4 assistant messages carrying tool
calls, each followed by one tool-result message per executed call, the
depth-limit diagnostic is surfaced (`aborted`), and no fifth streaming
request is issued (`passes` counts every model request of the turn). -/
theorem orchestrator_pass_bound (model : List Message → List StreamChunk)
    (fs : String → Except String String) (h0 : List Message)
    (hm : ∀ h : List Message, (processPass (model h)).2 ≠ []) :
    (streamAssistantResponse model fs h0).passes = 4 ∧
    (streamAssistantResponse model fs h0).aborted = true ∧
    ∃ tp : List (String × List ToolCall),
      tp.length = 4 ∧ (∀ x ∈ tp, x.2 ≠ []) ∧
      (streamAssistantResponse model fs h0).history
        = h0 ++ tp.foldr
            (fun x acc => (assistantToolMsg x.1 x.2 :: resolveToolCalls fs x.2) ++ acc) [] ∧
      (∀ x ∈ tp, (resolveToolCalls fs x.2).length = x.2.length) ∧
      ((streamAssistantResponse model fs h0).history.drop h0.length).countP
          (fun m => m.role == Role.assistant) = 4 := by
  obtain ⟨tp, hlen, hne, hhist, hpasses, habort⟩ := runTurn_allToolPasses model fs hm 4 h0
  refine ⟨hpasses, habort, tp, hlen, hne, hhist, ?_, ?_⟩
  · intro x hx
    exact List.length_map _ _
  · have hsar : (streamAssistantResponse model fs h0).history
        = (runTurn model fs 4 h0).history := rfl
    rw [hsar, hhist, List.drop_left, countP_assistant_foldr, hlen]

/-- C1 witness: a concrete model that always requests one tool call is
stopped after exactly 4 passes with the abort diagnostic surfaced. -/
theorem orchestrator_pass_bound_witness :
    (∀ h : List Message, (processPass (cwModelAllTools h)).2 ≠ []) ∧
    (streamAssistantResponse cwModelAllTools cwFsError []).passes = 4 ∧
    (streamAssistantResponse cwModelAllTools cwFsError []).aborted = true := by
  have hm : ∀ h : List Message, (processPass (cwModelAllTools h)).2 ≠ [] := by
    intro h hc
    have heval : (processPass (cwModelAllTools h)).2
        = [⟨"call-1", "read_file", "\x7b\"path\":\"/tmp/x\"\x7d"⟩] := rfl
    rw [heval] at hc
    exact List.noConfusion hc
  exact ⟨hm, (orchestrator_pass_bound cwModelAllTools cwFsError [] hm).1,
    (orchestrator_pass_bound cwModelAllTools cwFsError [] hm).2.1⟩

theorem pollLoopAux_pending (polls : Nat → String) (interval f a s : Nat) :
    pollLoopAux polls interval (f + 1) a s "pending" =
      pollLoopAux polls interval f (a + 1) (s + interval) (polls a) := by
  simp [pollLoopAux]

theorem pollLoopAux_stop (polls : Nat → String) (interval f a s : Nat) (st : String)
    (h : st ≠ "pending") :
    pollLoopAux polls interval (f + 1) a s st = ⟨st, a, s⟩ := by
  simp [pollLoopAux, h]

theorem pollLoopAux_attempts_le (polls : Nat → String) (interval : Nat) :
    ∀ (f a s : Nat) (st : String), (pollLoopAux polls interval f a s st).attempts ≤ a + f := by
  intro f
  induction f with
  | zero =>
    intro a s st
    simp [pollLoopAux]
  | succ f ih =>
    intro a s st
    by_cases h : st = "pending"
    · subst h
      rw [pollLoopAux_pending]
      have := ih (a + 1) (s + interval) (polls a)
      omega
    · rw [pollLoopAux_stop polls interval f a s st h]
      show a ≤ a + (f + 1)
      omega

theorem pollLoopAux_pending_exhausted (polls : Nat → String) (interval : Nat) :
    ∀ (f a s : Nat) (st : String),
      (pollLoopAux polls interval f a s st).status = "pending" →
      (pollLoopAux polls interval f a s st).attempts = a + f := by
  intro f
  induction f with
  | zero =>
    intro a s st _
    simp [pollLoopAux]
  | succ f ih =>
    intro a s st hst
    by_cases h : st = "pending"
    · subst h
      rw [pollLoopAux_pending] at hst ⊢
      have := ih (a + 1) (s + interval) (polls a) hst
      omega
    · rw [pollLoopAux_stop polls interval f a s st h] at hst
      exact absurd hst h

/-- C9: the login loop sleeps for the session interval before each poll,
repeats while the status is pending, and stops after at most 120
attempts; with three pending polls followed by a complete one, login
succeeds after exactly 4 poll calls and 20 seconds of sleep at a
5-second interval; any final status other than `complete` fails the
operation, and a final `pending` status occurs only when the budget is
exhausted. -/
theorem login_poll_spec (polls : Nat → String)
    (hp0 : polls 0 = "pending") (hp1 : polls 1 = "pending") (hp2 : polls 2 = "pending")
    (hp3 : polls 3 = "complete") :
    (login polls 5).status = "complete" ∧
    (login polls 5).attempts = 4 ∧
    (login polls 5).sleptSeconds = 20 ∧
    loginSucceeds (login polls 5) = true ∧
    15 ≤ (login polls 5).sleptSeconds ∧
    (∀ (polls2 : Nat → String) (interval : Nat),
      (login polls2 interval).attempts ≤ maxAttempts) ∧
    (∀ (polls2 : Nat → String) (interval : Nat),
      (login polls2 interval).status ≠ "complete" →
        loginSucceeds (login polls2 interval) = false) ∧
    (∀ (polls2 : Nat → String) (interval : Nat),
      (login polls2 interval).status = "pending" →
        (login polls2 interval).attempts = maxAttempts) := by
  have hrun : login polls 5 = ⟨"complete", 4, 20⟩ := by
    show pollLoopAux polls 5 120 0 0 "pending" = _
    rw [show (120 : Nat) = 119 + 1 from rfl, pollLoopAux_pending, hp0]
    rw [show (119 : Nat) = 118 + 1 from rfl, pollLoopAux_pending, hp1]
    rw [show (118 : Nat) = 117 + 1 from rfl, pollLoopAux_pending, hp2]
    rw [show (117 : Nat) = 116 + 1 from rfl, pollLoopAux_pending, hp3]
    rw [show (116 : Nat) = 115 + 1 from rfl,
      pollLoopAux_stop polls 5 115 (0 + 1 + 1 + 1 + 1) (0 + 5 + 5 + 5 + 5) "complete"
        (by decide)]
  refine ⟨by rw [hrun], by rw [hrun], by rw [hrun], by rw [hrun]; rfl,
    by rw [hrun]; show (15 : Nat) ≤ 20; omega, ?_, ?_, ?_⟩
  · intro polls2 interval
    exact pollLoopAux_attempts_le polls2 interval 120 0 0 "pending"
  · intro polls2 interval h
    simp [loginSucceeds, h]
  · intro polls2 interval h
    exact pollLoopAux_pending_exhausted polls2 interval 120 0 0 "pending" h

/-- C9 witness: the concrete pending-pending-pending-complete poll
sequence at a 5-second interval. -/
theorem login_poll_spec_witness :
    cwPolls 0 = "pending" ∧ cwPolls 1 = "pending" ∧ cwPolls 2 = "pending" ∧
    cwPolls 3 = "complete" ∧
    (login cwPolls 5).status = "complete" ∧ (login cwPolls 5).attempts = 4 ∧
    loginSucceeds (login cwPolls 5) = true ∧ 15 ≤ (login cwPolls 5).sleptSeconds :=
  ⟨rfl, rfl, rfl, rfl, (login_poll_spec cwPolls rfl rfl rfl rfl).1,
    (login_poll_spec cwPolls rfl rfl rfl rfl).2.1,
    (login_poll_spec cwPolls rfl rfl rfl rfl).2.2.2.1,
    (login_poll_spec cwPolls rfl rfl rfl rfl).2.2.2.2.1⟩

/-- C4 witness: a sentinel line followed by trailing bytes that would
otherwise produce an event yields nothing beyond the preceding lines. -/
theorem sentinel_termination_witness :
    chatStream [linesJoin [cwGoodLine] ++ (dataMarker ++ doneChars ++ ['\n']) ++ cwTailBytes]
      = chatStream [linesJoin [cwGoodLine]] :=
  sentinel_termination [cwGoodLine] cwTailBytes
    (by
      intro l hl
      rw [List.mem_singleton] at hl
      subst hl
      decide)
    (by
      intro l hl
      rw [List.mem_singleton] at hl
      subst hl
      rw [show processLine cwGoodLine = LineResult.emit ⟨some (Json.str "ok"), none⟩ from rfl]
      simp)

/-- C6 witness: one malformed framed line amid a valid line is skipped
and the valid line's events survive unchanged. -/
theorem malformed_line_tolerance_witness :
    chatStream [linesJoin ([] ++ (dataMarker ++ cwBadPayload) :: [cwGoodLine])]
      = chatStream [linesJoin ([] ++ [cwGoodLine])] :=
  malformed_line_tolerance [] [cwGoodLine] cwBadPayload
    (by intro l hl; exact absurd hl (List.not_mem_nil l))
    (by
      intro l hl
      rw [List.mem_singleton] at hl
      subst hl
      decide)
    (by decide) (by decide) rfl

/-- C5 amended witness: a parsed line with non-empty content and no
tool_calls field emits, matching the amended equivalence. -/
theorem delta_emission_amended_witness :
    cwDeltaPayload ≠ doneChars ∧
    ((∃ e, processLine (dataMarker ++ cwDeltaPayload) = LineResult.emit e)
      ↔ ("hi" ≠ "" ∨ (none : Option (List Json)).isSome)) :=
  ⟨by decide,
    delta_emission_amended cwDeltaPayload
      (Json.obj [("choices", Json.arr [Json.obj [("delta",
        Json.obj [("content", Json.str "hi")])]])])
      [("content", Json.str "hi")] "hi" none
      (by decide) rfl rfl rfl (Or.inl ⟨rfl, rfl⟩)⟩
